import Mathlib

/-!
Verification of the segment-pipeline of the document translation workbench.

The definitions below are a shallow embedding of the TypeScript sources:
* `src/utils/fileReassembler.ts` — `hasMeaningfulContent` and the dominant-run
  selection of `reassembleDocx` / `reassemblePptx`;
* `src/services/geminiService.ts` — `translateTextSegment` with its retry loop;
* `src/services/mockBackend.ts` — `MockTranslationBackend.processFile`
  (scope computation, batching, flushing, progress) and the download filter of
  `MockTranslationBackend.generateDownload`.

JavaScript strings are modelled as Lean `String`s (lists of characters);
`Math.round(100 * c / t)` is modelled as exact half-up rational rounding;
wall-clock sleeps are recorded as delay values rather than performed.
-/

/-- JavaScript whitespace (`\s` of a regular expression, `String.prototype.trim`),
restricted to the common code points. -/
def jsWs (c : Char) : Bool :=
  c = ' ' || c = '\t' || c = '\n' || c = '\r' || c = '\x0b' || c = '\x0c' || c = ' '

/-- JavaScript `String.prototype.trim`: strip `jsWs` from both ends. -/
def jsTrim (s : String) : String :=
  String.mk (((s.toList.dropWhile jsWs).reverse.dropWhile jsWs).reverse)

/-- `src/types.ts` — `Segment.status`. -/
inductive SegStatus where
  | pending
  | translating
  | completed
  | warning
deriving DecidableEq

/-- `src/types.ts` — `Segment`. -/
structure Segment where
  id : String
  index : Nat
  original : String
  translated : String
  status : SegStatus
  warningMessage : Option String := none
  pageNumber : Option Nat := none
deriving DecidableEq

/-- `src/types.ts` — `PageRange`. -/
structure PageRange where
  start : Nat
  «end» : Nat
deriving DecidableEq

/-- `src/types.ts` — `FileJob.status`. -/
inductive JobStatus where
  | idle
  | queued
  | processing
  | completed
  | error
deriving DecidableEq

/-! ## Dominant-run selection (`src/utils/fileReassembler.ts`) -/

/-- `fileReassembler.ts` line 42: `/[^\s_]/.test(text)` — some character is
neither whitespace nor an underscore. -/
def hasMeaningfulContent (text : String) : Bool :=
  text.toList.any (fun c => !jsWs c && c ≠ '_')

/-- `fileReassembler.ts` lines 119–125: the `forEach` scan keeping the first
node whose length strictly exceeds the running maximum. -/
def scanDominant : List String → Int → String → String
  | [], _, dom => dom
  | n :: rest, maxLen, dom =>
    if (n.length : Int) > maxLen then scanDominant rest (n.length : Int) n
    else scanDominant rest maxLen dom

/-- `fileReassembler.ts` lines 112–125: filter the run texts by
`hasMeaningfulContent` (falling back to all runs when none qualifies), then scan
for the longest with `maxLen = -1` and `dominantNode = candidateNodes[0]`. -/
def dominantRun (runNodes : List String) : Option String :=
  let contentNodes := runNodes.filter hasMeaningfulContent
  let candidateNodes := if contentNodes.length > 0 then contentNodes else runNodes
  match candidateNodes with
  | [] => none
  | c0 :: _ => some (scanDominant candidateNodes (-1) c0)

/-! ## Processing scope and download filter (`src/services/mockBackend.ts`) -/

/-- `mockBackend.ts` lines 229–238: membership of a segment in the buffered
translation window `[max(1, start-1), min(pageCount, end+1)]`; segments with no
`pageNumber` are excluded. -/
def inBufferedScope (range : PageRange) (pageCount : Nat) (s : Segment) : Bool :=
  match s.pageNumber with
  | none => false
  | some p =>
    let bufferStart := max 1 (range.start - 1)
    let bufferEnd := min pageCount (range.«end» + 1)
    decide (bufferStart ≤ p) && decide (p ≤ bufferEnd)

/-- `mockBackend.ts` lines 225–241: the processing scope. The filter applies
only when a range is selected and `job.pageCount` is truthy (a `pageCount` of
`0` is falsy in JavaScript). -/
def scopeSegments (segments : List Segment) (selectedRange : Option PageRange)
    (pageCount : Option Nat) : List Segment :=
  match selectedRange, pageCount with
  | some r, some pc =>
    if pc = 0 then segments else segments.filter (inBufferedScope r pc)
  | _, _ => segments

/-- `mockBackend.ts` lines 181–187 (`generateDownload`): keep a segment when its
page is unknown, otherwise require `start ≤ pageNumber ≤ end` (strict range, no
buffer). -/
def downloadSegments (segments : List Segment) (selectedRange : Option PageRange) :
    List Segment :=
  match selectedRange with
  | none => segments
  | some r => segments.filter (fun s =>
      match s.pageNumber with
      | none => true
      | some p => decide (r.start ≤ p) && decide (p ≤ r.«end»))

/-! ## Claim C1 -/

/-- C1 counterexample: on the runs `["Hello ", "world", "!!!"]` the dominant-run
selection of the reassembler picks `"Hello "`, not `"world"` as the claim
states (`"!!!"` passes `hasMeaningfulContent`, and `"Hello "` is the longest
candidate at 6 characters). -/
theorem c1_dominant_counterexample :
    dominantRun ["Hello ", "world", "!!!"] = some "Hello " ∧
    dominantRun ["Hello ", "world", "!!!"] ≠ some "world" := by
  constructor
  · rfl
  · decide

/-- C1 (amended): for the paragraph runs `["Hello ", "world", "!!!"]`, every
run — including the purely-punctuation `"!!!"` — passes `hasMeaningfulContent`
(which only rules out whitespace and underscores), so the candidate set is all
three runs and the dominant node is the longest one, `"Hello "` (6 characters),
not `"!!!"` and not `"world"`. -/
theorem c1_dominant_selection :
    hasMeaningfulContent "!!!" = true ∧
    (["Hello ", "world", "!!!"].filter hasMeaningfulContent
      = ["Hello ", "world", "!!!"]) ∧
    dominantRun ["Hello ", "world", "!!!"] = some "Hello " ∧
    dominantRun ["Hello ", "world", "!!!"] ≠ some "!!!" ∧
    dominantRun ["Hello ", "world", "!!!"] ≠ some "world" := by
  refine ⟨rfl, rfl, rfl, by decide, by decide⟩

/-! ## Claim C3 -/

/-- Membership in the buffered processing scope, unfolded. -/
lemma scope_mem_iff (segments : List Segment) (s : Segment) (r : PageRange)
    (pc : Nat) (hpc : pc ≠ 0) :
    s ∈ scopeSegments segments (some r) (some pc) ↔
      s ∈ segments ∧ ∃ p, s.pageNumber = some p ∧
        max 1 (r.start - 1) ≤ p ∧ p ≤ min pc (r.«end» + 1) := by
  simp only [scopeSegments, if_neg hpc, List.mem_filter]
  refine and_congr_right fun _ => ?_
  cases hp : s.pageNumber with
  | none => simp [inBufferedScope, hp]
  | some p =>
    simp [inBufferedScope, hp]

/-- C3: with a selected range and a known (nonzero) page count, the processing
scope is exactly the segments whose `pageNumber` is defined and lies in
`[max(1, start-1), min(pageCount, end+1)]`; in particular with `pageCount = 20`
and range `{start := 5, end := 15}` the scope is exactly pages 4 through 16,
and segments with undefined `pageNumber` are excluded. -/
theorem c3_buffered_scope (segments : List Segment) (s : Segment) :
    (∀ (r : PageRange) (pc : Nat), pc ≠ 0 →
      (s ∈ scopeSegments segments (some r) (some pc) ↔
        s ∈ segments ∧ ∃ p, s.pageNumber = some p ∧
          max 1 (r.start - 1) ≤ p ∧ p ≤ min pc (r.«end» + 1))) ∧
    (s ∈ scopeSegments segments (some ⟨5, 15⟩) (some 20) ↔
      s ∈ segments ∧ ∃ p, s.pageNumber = some p ∧ 4 ≤ p ∧ p ≤ 16) := by
  refine ⟨scope_mem_iff segments s, ?_⟩
  have h20 : (20 : Nat) ≠ 0 := by decide
  rw [scope_mem_iff segments s ⟨5, 15⟩ 20 h20]
  refine and_congr_right fun _ => ?_
  constructor
  · rintro ⟨p, hp, h1, h2⟩
    exact ⟨p, hp, by simpa using h1, by simpa using h2⟩
  · rintro ⟨p, hp, h1, h2⟩
    exact ⟨p, hp, by simpa using h1, by simpa using h2⟩

/-- Concrete segment used by several witnesses. -/
def pageFourSegment : Segment :=
  { id := "seg-f-0", index := 0, original := "text on page 4", translated := "",
    status := SegStatus.pending, pageNumber := some 4 }

/-- C3 witness: the segment on page 4 is in scope for range 5–15 of a 20-page
document. -/
theorem c3_buffered_scope_witness :
    (20 : Nat) ≠ 0 ∧
    (pageFourSegment ∈
        scopeSegments [pageFourSegment] (some ⟨5, 15⟩) (some 20) ↔
      pageFourSegment ∈ [pageFourSegment] ∧ ∃ p, pageFourSegment.pageNumber = some p ∧
        max 1 ((5 : Nat) - 1) ≤ p ∧ p ≤ min 20 ((15 : Nat) + 1)) :=
  ⟨by decide, (c3_buffered_scope [pageFourSegment] pageFourSegment).1 ⟨5, 15⟩ 20 (by decide)⟩

/-! ## Claim C10 -/

/-- C10: with a selected range, the download filter keeps exactly the segments
whose page lies in the strict range `[start, end]` plus every segment with
undefined `pageNumber`; an undefined-page segment is kept at download time even
though it is excluded from the processing scope, and the buffer pages
`start - 1` and `end + 1` are excluded from the output. -/
theorem c10_download_filter (segments : List Segment) (r : PageRange) (s : Segment)
    (pc : Nat) (hpc : pc ≠ 0) (hstart : 1 ≤ r.start) :
    (s ∈ downloadSegments segments (some r) ↔
      s ∈ segments ∧ (s.pageNumber = none ∨
        ∃ p, s.pageNumber = some p ∧ r.start ≤ p ∧ p ≤ r.«end»)) ∧
    (s ∈ segments → s.pageNumber = none →
      s ∈ downloadSegments segments (some r) ∧
        s ∉ scopeSegments segments (some r) (some pc)) ∧
    (s.pageNumber = some (r.start - 1) → s ∉ downloadSegments segments (some r)) ∧
    (s.pageNumber = some (r.«end» + 1) → s ∉ downloadSegments segments (some r)) := by
  have hmem : s ∈ downloadSegments segments (some r) ↔
      s ∈ segments ∧ (s.pageNumber = none ∨
        ∃ p, s.pageNumber = some p ∧ r.start ≤ p ∧ p ≤ r.«end») := by
    simp only [downloadSegments, List.mem_filter]
    refine and_congr_right fun _ => ?_
    cases hp : s.pageNumber with
    | none => simp [hp]
    | some p => simp [hp]
  refine ⟨hmem, ?_, ?_, ?_⟩
  · intro hs hnone
    refine ⟨hmem.2 ⟨hs, Or.inl hnone⟩, ?_⟩
    intro hsc
    have := (scope_mem_iff segments s r pc hpc).1 hsc
    obtain ⟨_, p, hp, -⟩ := this
    rw [hnone] at hp
    exact Option.noConfusion hp
  · intro hp hmem'
    obtain ⟨-, hcase⟩ := hmem.1 hmem'
    rcases hcase with hnone | ⟨p, hp', h1, -⟩
    · rw [hp] at hnone; exact Option.noConfusion hnone
    · rw [hp] at hp'
      have hpe : p = r.start - 1 := by
        have := Option.some.inj hp'; omega
      omega
  · intro hp hmem'
    obtain ⟨-, hcase⟩ := hmem.1 hmem'
    rcases hcase with hnone | ⟨p, hp', -, h2⟩
    · rw [hp] at hnone; exact Option.noConfusion hnone
    · rw [hp] at hp'
      have hpe : p = r.«end» + 1 := (Option.some.inj hp').symm
      omega

/-- Concrete segment with unknown page, used by the C10 witness. -/
def unknownPageSegment : Segment :=
  { id := "seg-u-0", index := 0, original := "header text", translated := "",
    status := SegStatus.pending, pageNumber := none }

/-- C10 witness: for range 5–15 on a 20-page document, the unknown-page segment
is kept by the download filter (and excluded from the processing scope). -/
theorem c10_download_filter_witness :
    ((20 : Nat) ≠ 0 ∧ 1 ≤ (5 : Nat)) ∧
    ((unknownPageSegment ∈ downloadSegments [unknownPageSegment] (some ⟨5, 15⟩) ↔
      unknownPageSegment ∈ [unknownPageSegment] ∧ (unknownPageSegment.pageNumber = none ∨
        ∃ p, unknownPageSegment.pageNumber = some p ∧ 5 ≤ p ∧ p ≤ 15)) ∧
    (unknownPageSegment ∈ [unknownPageSegment] → unknownPageSegment.pageNumber = none →
      unknownPageSegment ∈ downloadSegments [unknownPageSegment] (some ⟨5, 15⟩) ∧
        unknownPageSegment ∉ scopeSegments [unknownPageSegment] (some ⟨5, 15⟩) (some 20)) ∧
    (unknownPageSegment.pageNumber = some ((5 : Nat) - 1) →
      unknownPageSegment ∉ downloadSegments [unknownPageSegment] (some ⟨5, 15⟩)) ∧
    (unknownPageSegment.pageNumber = some ((15 : Nat) + 1) →
      unknownPageSegment ∉ downloadSegments [unknownPageSegment] (some ⟨5, 15⟩))) :=
  ⟨⟨by decide, by decide⟩,
    c10_download_filter [unknownPageSegment] ⟨5, 15⟩ unknownPageSegment 20
      (by decide) (by decide)⟩

/-! ## Translation client retry loop (`src/services/geminiService.ts`) -/

/-- The error shape inspected by `translateTextSegment`'s catch block:
`error?.status || error?.response?.status || error?.body?.error?.code` collapsed
to one optional code, plus `error?.message || JSON.stringify(error)` as one
message string. -/
structure ApiError where
  code : Option Nat
  message : String
deriving DecidableEq

/-- Substring test used to model `errorMessage.includes(...)`. -/
def strIncludes (s sub : String) : Bool :=
  decide (sub.toList <:+: s.toList)

/-- `geminiService.ts` line 52. -/
def isRateLimit (e : ApiError) : Bool :=
  e.code = some 429 || strIncludes e.message "429" || strIncludes e.message "quota" ||
    strIncludes e.message "RESOURCE_EXHAUSTED"

/-- `geminiService.ts` line 53. -/
def isServerOverload (e : ApiError) : Bool :=
  e.code = some 503 || strIncludes e.message "503"

/-- The retry guard of `geminiService.ts` line 55. -/
def retryableErr (e : ApiError) : Bool :=
  isRateLimit e || isServerOverload e

/-- `geminiService.ts` line 21. -/
def MAX_RETRIES : Nat := 5

/-- The error thrown at `geminiService.ts` line 71 if the while loop were ever
exited normally. -/
def maxRetriesError : ApiError :=
  { code := none, message := "Max retries exceeded for translation request." }

/-- Observable outcome of one `translateTextSegment` run: the returned text or
thrown error, the number of API calls made, and the backoff delays slept. -/
structure TransRun where
  result : Except ApiError String
  attempts : Nat
  delays : List Nat

/-- `geminiService.ts` line 46: `response.text?.trim() || text`. -/
def responseText (rtext : Option String) (text : String) : String :=
  match rtext with
  | some t => if jsTrim t = "" then text else jsTrim t
  | none => text

/-- One iteration of the retry while-loop (`geminiService.ts` lines 24–68) at a
given attempt counter: a successful call returns the cleaned response; a
failure that is rate-limiting or overload with `attempt < MAX_RETRIES - 1`
sleeps `10000 * 2^attempt + jitter` and defers to the next iteration; any other
failure is rethrown at once. -/
def attemptStep (calls : Nat → Except ApiError (Option String)) (jitter : Nat → Nat)
    (text : String) (attempt : Nat) (onRetry : TransRun) : TransRun :=
  match calls attempt with
  | Except.ok rtext =>
    { result := Except.ok (responseText rtext text), attempts := attempt + 1, delays := [] }
  | Except.error e =>
    if retryableErr e && decide (attempt < MAX_RETRIES - 1) then
      { result := onRetry.result, attempts := onRetry.attempts,
        delays := (10000 * 2 ^ attempt + jitter attempt) :: onRetry.delays }
    else
      { result := Except.error e, attempts := attempt + 1, delays := [] }

/-- `geminiService.ts` lines 15–72, the `while (attempt < MAX_RETRIES)` loop
unrolled for `MAX_RETRIES = 5`; the innermost continuation is the
line 71 “Max retries exceeded” throw reached only if all guards pass. A
whitespace-only input returns unchanged with no call. The environment of the
run is the outcome of each attempt (`calls`) and the jitter drawn for each
sleep (`jitter`, in milliseconds, `Math.random() * 2000`). -/
def translateTextSegment (calls : Nat → Except ApiError (Option String))
    (jitter : Nat → Nat) (text : String) : TransRun :=
  if jsTrim text = "" then { result := Except.ok text, attempts := 0, delays := [] }
  else
    attemptStep calls jitter text 0
      (attemptStep calls jitter text 1
        (attemptStep calls jitter text 2
          (attemptStep calls jitter text 3
            (attemptStep calls jitter text 4
              { result := Except.error maxRetriesError, attempts := 5, delays := [] }))))

/-- Each iteration keeps the total attempt count within the bound. -/
lemma attemptStep_attempts_le (calls : Nat → Except ApiError (Option String))
    (jitter : Nat → Nat) (text : String) (attempt : Nat) (onRetry : TransRun)
    (h : onRetry.attempts ≤ 5) (h2 : attempt + 1 ≤ 5) :
    (attemptStep calls jitter text attempt onRetry).attempts ≤ 5 := by
  unfold attemptStep
  cases calls attempt with
  | ok rtext => exact h2
  | error e =>
    by_cases hr : (retryableErr e && decide (attempt < MAX_RETRIES - 1)) = true
    · simpa [hr] using h
    · simpa [hr] using h2

/-- Each iteration only ever adds a delay of the backoff-plus-jitter form. -/
lemma attemptStep_delays_form (calls : Nat → Except ApiError (Option String))
    (jitter : Nat → Nat) (text : String) (attempt : Nat) (onRetry : TransRun)
    (h : ∀ d ∈ onRetry.delays, ∃ k, d = 10000 * 2 ^ k + jitter k) :
    ∀ d ∈ (attemptStep calls jitter text attempt onRetry).delays,
      ∃ k, d = 10000 * 2 ^ k + jitter k := by
  unfold attemptStep
  cases calls attempt with
  | ok rtext => simp
  | error e =>
    by_cases hr : (retryableErr e && decide (attempt < MAX_RETRIES - 1)) = true
    · simp only [hr, if_true]
      intro d hd
      rcases List.mem_cons.1 hd with hd | hd
      · exact ⟨attempt, hd⟩
      · exact h d hd
    · simp [hr]

/-- C2: for a non-blank input, the translation client makes at most 5 attempts;
every sleep is `10000 * 2^attempt` milliseconds plus a jitter below 2000 ms; if
the first `k` attempts fail with throttling (HTTP 429 / quota) or overload
(HTTP 503) errors and attempt `k` fails with any other error, that error is
rethrown immediately after exactly `k + 1` calls and `k` backoff sleeps; and if
all 5 attempts fail with retryable errors, the run ends with a terminal error
after exactly 5 calls and 4 backoff sleeps. -/
theorem c2_retry_policy (calls : Nat → Except ApiError (Option String))
    (jitter : Nat → Nat) (text : String) (ht : jsTrim text ≠ "")
    (hj : ∀ k, jitter k < 2000) :
    (translateTextSegment calls jitter text).attempts ≤ 5 ∧
    (∀ d ∈ (translateTextSegment calls jitter text).delays,
      ∃ k, d = 10000 * 2 ^ k + jitter k ∧ jitter k < 2000) ∧
    (∀ k, k < 5 → ∀ e,
      (∀ j, j < k → ∃ ej, calls j = Except.error ej ∧ retryableErr ej = true) →
      calls k = Except.error e → retryableErr e = false →
      (translateTextSegment calls jitter text).result = Except.error e ∧
      (translateTextSegment calls jitter text).attempts = k + 1 ∧
      (translateTextSegment calls jitter text).delays
        = (List.range k).map (fun j => 10000 * 2 ^ j + jitter j)) ∧
    (∀ e4,
      (∀ j, j < 4 → ∃ ej, calls j = Except.error ej ∧ retryableErr ej = true) →
      calls 4 = Except.error e4 → retryableErr e4 = true →
      (translateTextSegment calls jitter text).result = Except.error e4 ∧
      (translateTextSegment calls jitter text).attempts = 5 ∧
      (translateTextSegment calls jitter text).delays
        = (List.range 4).map (fun j => 10000 * 2 ^ j + jitter j)) := by
  have hunfold : translateTextSegment calls jitter text =
      attemptStep calls jitter text 0
        (attemptStep calls jitter text 1
          (attemptStep calls jitter text 2
            (attemptStep calls jitter text 3
              (attemptStep calls jitter text 4
                { result := Except.error maxRetriesError, attempts := 5, delays := [] })))) := by
    simp [translateTextSegment, ht]
  refine ⟨?_, ?_, ?_, ?_⟩
  · rw [hunfold]
    refine attemptStep_attempts_le _ _ _ _ _ ?_ (by decide)
    refine attemptStep_attempts_le _ _ _ _ _ ?_ (by decide)
    refine attemptStep_attempts_le _ _ _ _ _ ?_ (by decide)
    refine attemptStep_attempts_le _ _ _ _ _ ?_ (by decide)
    exact attemptStep_attempts_le _ _ _ _ _ (by decide) (by decide)
  · rw [hunfold]
    intro d hd
    have base : ∀ d ∈ (TransRun.mk (Except.error maxRetriesError) 5 []).delays,
        ∃ k, d = 10000 * 2 ^ k + jitter k := by simp
    have h4 := attemptStep_delays_form calls jitter text 4 _ base
    have h3 := attemptStep_delays_form calls jitter text 3 _ h4
    have h2 := attemptStep_delays_form calls jitter text 2 _ h3
    have h1 := attemptStep_delays_form calls jitter text 1 _ h2
    have h0 := attemptStep_delays_form calls jitter text 0 _ h1
    obtain ⟨k, hk⟩ := h0 d hd
    exact ⟨k, hk, hj k⟩
  · intro k hk e hprev hcall hnr
    rw [hunfold]
    interval_cases k
    · simp [attemptStep, hcall, hnr]
    · obtain ⟨e0, hc0, hr0⟩ := hprev 0 (by omega)
      have : List.range 1 = [0] := by decide
      rw [this]
      simp [attemptStep, hc0, hr0, hcall, hnr, MAX_RETRIES]
    · obtain ⟨e0, hc0, hr0⟩ := hprev 0 (by omega)
      obtain ⟨e1, hc1, hr1⟩ := hprev 1 (by omega)
      have : List.range 2 = [0, 1] := by decide
      rw [this]
      simp [attemptStep, hc0, hr0, hc1, hr1, hcall, hnr, MAX_RETRIES]
    · obtain ⟨e0, hc0, hr0⟩ := hprev 0 (by omega)
      obtain ⟨e1, hc1, hr1⟩ := hprev 1 (by omega)
      obtain ⟨e2, hc2, hr2⟩ := hprev 2 (by omega)
      have : List.range 3 = [0, 1, 2] := by decide
      rw [this]
      simp [attemptStep, hc0, hr0, hc1, hr1, hc2, hr2, hcall, hnr, MAX_RETRIES]
    · obtain ⟨e0, hc0, hr0⟩ := hprev 0 (by omega)
      obtain ⟨e1, hc1, hr1⟩ := hprev 1 (by omega)
      obtain ⟨e2, hc2, hr2⟩ := hprev 2 (by omega)
      obtain ⟨e3, hc3, hr3⟩ := hprev 3 (by omega)
      have : List.range 4 = [0, 1, 2, 3] := by decide
      rw [this]
      simp [attemptStep, hc0, hr0, hc1, hr1, hc2, hr2, hc3, hr3, hcall, hnr, MAX_RETRIES]
  · intro e4 hprev hcall hr4
    rw [hunfold]
    obtain ⟨e0, hc0, hr0⟩ := hprev 0 (by omega)
    obtain ⟨e1, hc1, hr1⟩ := hprev 1 (by omega)
    obtain ⟨e2, hc2, hr2⟩ := hprev 2 (by omega)
    obtain ⟨e3, hc3, hr3⟩ := hprev 3 (by omega)
    have : List.range 4 = [0, 1, 2, 3] := by decide
    rw [this]
    simp [attemptStep, hc0, hr0, hc1, hr1, hc2, hr2, hc3, hr3, hcall, hr4, MAX_RETRIES]

/-- C2 concrete environment: every attempt fails with an HTTP 429 error. -/
def throttleError : ApiError := { code := some 429, message := "quota exceeded" }

/-- C2 witness: with a non-blank input and every attempt failing with HTTP 429,
the run makes exactly 5 attempts, sleeps the four geometric backoff delays and
ends with the terminal error. -/
theorem c2_retry_policy_witness :
    (jsTrim "hi" ≠ "" ∧ retryableErr throttleError = true) ∧
    ((translateTextSegment (fun _ => Except.error throttleError) (fun _ => 1000) "hi").result
        = Except.error throttleError ∧
      (translateTextSegment (fun _ => Except.error throttleError) (fun _ => 1000) "hi").attempts
        = 5 ∧
      (translateTextSegment (fun _ => Except.error throttleError) (fun _ => 1000) "hi").delays
        = (List.range 4).map (fun j => 10000 * 2 ^ j + 1000)) :=
  ⟨⟨by decide, by decide⟩,
    (c2_retry_policy (fun _ => Except.error throttleError) (fun _ => 1000) "hi"
        (by decide) (fun _ => by show (1000 : Nat) < 2000; decide)).2.2.2 throttleError
      (fun j _ => ⟨throttleError, rfl, by decide⟩) rfl (by decide)⟩

/-! ## The batch delimiter (`src/services/mockBackend.ts` lines 258, 289–295)

`textToTranslate` joins the originals with `" ||| "`; the reply is split with
the regular expression `/\s*\|\|\|\s*/`. The splitter below scans left to
right; at each position a delimiter match greedily takes a whitespace run, the
three pipes, and a trailing whitespace run (for this pattern a greedy scan with
no backtracking finds exactly the regex matches). The scanner is written with
an explicit fuel argument (one unit per consumed character) so that it is
structurally recursive. -/

/-- `" ||| "` as characters. -/
def sepChars : List Char := [' ', '|', '|', '|', ' ']

/-- `Array.prototype.join(" ||| ")` on character lists. -/
def sepJoin : List (List Char) → List Char
  | [] => []
  | [o] => o
  | o :: rest => o ++ (sepChars ++ sepJoin rest)

/-- `currentBatch.map(s => s.original).join(" ||| ")`. -/
def joinDelim (os : List String) : String :=
  String.mk (sepJoin (os.map String.toList))

/-- Try to match `/\s*\|\|\|\s*/` at the head of the input; on success return
the input minus the match. -/
def matchDelimAt (cs : List Char) : Option (List Char) :=
  match cs.dropWhile jsWs with
  | a :: b :: c :: rest =>
    if a = '|' ∧ b = '|' ∧ c = '|' then some (rest.dropWhile jsWs) else none
  | _ => none

/-- The split scan: `acc` is the current chunk reversed; at each character
either a delimiter match ends the chunk or the character is accumulated. -/
def splitLoopF : Nat → List Char → List Char → List (List Char)
  | 0, acc, rest => [acc.reverse ++ rest]
  | _ + 1, acc, [] => [acc.reverse]
  | fuel + 1, acc, c :: rest =>
    match matchDelimAt (c :: rest) with
    | some rest2 => acc.reverse :: splitLoopF fuel [] rest2
    | none => splitLoopF fuel (c :: acc) rest

/-- `translatedBlock.split(/\s*\|\|\|\s*/)`. -/
def splitDelimStr (s : String) : List String :=
  (splitLoopF s.toList.length [] s.toList).map String.mk

/-- A successful delimiter match consumes at least the three pipes. -/
lemma matchDelimAt_length (cs rest2 : List Char) (h : matchDelimAt cs = some rest2) :
    rest2.length + 3 ≤ cs.length := by
  have hsub : (cs.dropWhile jsWs).length ≤ cs.length :=
    (List.dropWhile_suffix (l := cs) jsWs).length_le
  unfold matchDelimAt at h
  split at h
  · rename_i a b c tl heq
    split at h
    · have hr : rest2 = tl.dropWhile jsWs := (Option.some.inj h).symm
      have h2 : (tl.dropWhile jsWs).length ≤ tl.length :=
        (List.dropWhile_suffix (l := tl) jsWs).length_le
      rw [heq] at hsub
      simp only [List.length_cons] at hsub
      rw [hr]
      omega
    · exact absurd h (by simp)
  · exact absurd h (by simp)

/-- The fuel is irrelevant as long as it covers the input length. -/
lemma splitLoopF_congr : ∀ (f1 : Nat) (l acc : List Char) (f2 : Nat),
    l.length ≤ f1 → l.length ≤ f2 → splitLoopF f1 acc l = splitLoopF f2 acc l := by
  intro f1
  induction f1 with
  | zero =>
    intro l acc f2 h1 _
    have : l = [] := List.length_eq_zero.mp (Nat.le_zero.mp h1)
    subst this
    cases f2 with
    | zero => rfl
    | succ g => simp [splitLoopF]
  | succ f ih =>
    intro l acc f2 h1 h2
    cases l with
    | nil =>
      cases f2 with
      | zero => simp [splitLoopF]
      | succ g => rfl
    | cons c rest =>
      cases f2 with
      | zero => simp at h2
      | succ g =>
        simp only [splitLoopF]
        cases hm : matchDelimAt (c :: rest) with
        | some rest2 =>
          have hlen := matchDelimAt_length _ _ hm
          simp only [List.length_cons] at h1 h2 hlen
          have := ih rest2 [] g (by omega) (by omega)
          simp only [this]
        | none =>
          simp only [List.length_cons] at h1 h2
          have := ih rest (c :: acc) g (by omega) (by omega)
          simp only [this]

/-- Does the list begin with three pipes? -/
def startsTriple (l : List Char) : Bool :=
  match l with
  | a :: b :: c :: _ => a = '|' && b = '|' && c = '|'
  | _ => false

/-- Does the list contain three consecutive pipes anywhere? -/
def hasTriple : List Char → Bool
  | [] => false
  | c :: rest => startsTriple (c :: rest) || hasTriple rest

lemma hasTriple_cons_false {c : Char} {rest : List Char}
    (h : hasTriple (c :: rest) = false) :
    startsTriple (c :: rest) = false ∧ hasTriple rest = false := by
  have : (startsTriple (c :: rest) || hasTriple rest) = false := h
  exact ⟨(Bool.or_eq_false_iff.mp this).1, (Bool.or_eq_false_iff.mp this).2⟩

lemma hasTriple_dropWhile (p : Char → Bool) :
    ∀ l, hasTriple l = false → hasTriple (l.dropWhile p) = false := by
  intro l
  induction l with
  | nil => intro h; simpa using h
  | cons c rest ih =>
    intro h
    rw [List.dropWhile_cons]
    split
    · exact ih (hasTriple_cons_false h).2
    · exact h

lemma matchDelimAt_none_of (cs : List Char) (h : hasTriple cs = false) :
    matchDelimAt cs = none := by
  have hdw := hasTriple_dropWhile jsWs cs h
  unfold matchDelimAt
  split
  · rename_i a b c tl heq
    rw [heq] at hdw
    have hcond : ¬(a = '|' ∧ b = '|' ∧ c = '|') := by
      rintro ⟨rfl, rfl, rfl⟩
      have hs := (hasTriple_cons_false hdw).1
      simp [startsTriple] at hs
    rw [if_neg hcond]
  · rfl

/-- Scanning a delimiter-free input yields a single chunk. -/
lemma splitLoopF_noDelim : ∀ (fuel : Nat) (o acc : List Char), o.length ≤ fuel →
    hasTriple o = false → splitLoopF fuel acc o = [acc.reverse ++ o] := by
  intro fuel
  induction fuel with
  | zero => intro o acc _ _; rfl
  | succ f ih =>
    intro o acc h1 h2
    cases o with
    | nil => simp [splitLoopF]
    | cons c rest =>
      have hnone := matchDelimAt_none_of (c :: rest) h2
      have hlen : rest.length ≤ f := by
        simp only [List.length_cons] at h1; omega
      simp only [splitLoopF, hnone]
      rw [ih rest (c :: acc) hlen (hasTriple_cons_false h2).2]
      simp

/-- No delimiter match can begin inside a pipe-free chunk whose last character
is not whitespace, even with the separator's space following it. -/
lemma matchDelimAt_append_none (u z : List Char) (hu : hasTriple u = false)
    (hne : u ≠ []) (hlast : ∀ c, u.getLast? = some c → jsWs c = false) :
    matchDelimAt (u ++ ' ' :: z) = none := by
  have hdne : u.dropWhile jsWs ≠ [] := by
    intro hnil
    have hall := List.dropWhile_eq_nil_iff.mp hnil
    have hmem : u.getLast hne ∈ u := List.getLast_mem hne
    have hws := hall _ hmem
    have := hlast (u.getLast hne) (List.getLast?_eq_getLast u hne)
    rw [this] at hws
    exact Bool.noConfusion hws
  have happ : (u ++ ' ' :: z).dropWhile jsWs = u.dropWhile jsWs ++ ' ' :: z := by
    rw [List.dropWhile_append]
    rw [if_neg]
    simpa [List.isEmpty_iff] using hdne
  have hut : hasTriple (u.dropWhile jsWs) = false := hasTriple_dropWhile _ _ hu
  unfold matchDelimAt
  rw [happ]
  rcases hdw : u.dropWhile jsWs with _ | ⟨d, _ | ⟨e, _ | ⟨f, t⟩⟩⟩
  · exact absurd hdw hdne
  · cases z with
    | nil => rfl
    | cons g z' => simp
  · simp
  · rw [hdw] at hut
    have hcond : ¬(d = '|' ∧ e = '|' ∧ f = '|') := by
      rintro ⟨rfl, rfl, rfl⟩
      have hs := (hasTriple_cons_false hut).1
      simp [startsTriple] at hs
    simp [hcond]

/-- Scanning a clean chunk followed by the separator emits the chunk and
continues after the separator. -/
lemma splitLoopF_chunk : ∀ (o : List Char) (fuel : Nat) (acc rest : List Char),
    hasTriple o = false →
    (∀ c, o.getLast? = some c → jsWs c = false) →
    (∀ c, rest.head? = some c → jsWs c = false) →
    o.length + 5 + rest.length ≤ fuel →
    splitLoopF fuel acc (o ++ sepChars ++ rest)
      = (acc.reverse ++ o) :: splitLoopF rest.length [] rest := by
  intro o
  induction o with
  | nil =>
    intro fuel acc rest _ _ h3 h4
    cases fuel with
    | zero => exact absurd h4 (by simp)
    | succ f =>
      have hws : jsWs ' ' = true := by decide
      have hwp : jsWs '|' = false := by decide
      have hdrop : (' ' :: rest).dropWhile jsWs = rest := by
        cases rest with
        | nil => simp [List.dropWhile_cons, hws]
        | cons r rs =>
          have hr : jsWs r = false := h3 r rfl
          simp [List.dropWhile_cons, hr, hws]
      have hm : matchDelimAt (' ' :: '|' :: '|' :: '|' :: ' ' :: rest) = some rest := by
        have h5 : (' ' :: '|' :: '|' :: '|' :: ' ' :: rest).dropWhile jsWs
            = '|' :: '|' :: '|' :: (' ' :: rest) := by
          simp [List.dropWhile_cons, hws, hwp]
        unfold matchDelimAt
        rw [h5]
        simp [hdrop]
      have hshape : ([] : List Char) ++ sepChars ++ rest
          = ' ' :: ('|' :: '|' :: '|' :: ' ' :: rest) := by
        simp [sepChars]
      rw [hshape]
      simp only [splitLoopF, hm]
      rw [splitLoopF_congr f rest [] rest.length (by simp at h4; omega) (le_refl _)]
      simp
  | cons ch o' ih =>
    intro fuel acc rest h1 h2 h3 h4
    cases fuel with
    | zero => exact absurd h4 (by simp)
    | succ f =>
      have hsep : sepChars ++ rest = ' ' :: ('|' :: '|' :: '|' :: ' ' :: rest) := by
        simp [sepChars]
      have hnone : matchDelimAt (ch :: (o' ++ sepChars ++ rest)) = none := by
        have hshape : ch :: (o' ++ sepChars ++ rest)
            = (ch :: o') ++ ' ' :: ('|' :: '|' :: '|' :: ' ' :: rest) := by
          simp [sepChars]
        rw [hshape]
        exact matchDelimAt_append_none (ch :: o') _ h1 (by simp) h2
      have hlast' : ∀ c, o'.getLast? = some c → jsWs c = false := by
        intro c hc
        cases o' with
        | nil => exact absurd hc (by simp)
        | cons x xs =>
          exact h2 c (by rw [List.getLast?_cons_cons]; exact hc)
      have hshape2 : (ch :: o') ++ sepChars ++ rest = ch :: (o' ++ sepChars ++ rest) := by
        simp
      rw [hshape2]
      simp only [splitLoopF, hnone]
      rw [ih f (ch :: acc) rest (hasTriple_cons_false h1).2 hlast' h3
        (by simp only [List.length_cons] at h4; omega)]
      simp

/-- Splitting the separator-join of clean chunks recovers the chunks. -/
lemma splitChunks_sepJoin : ∀ (os : List (List Char)), os ≠ [] →
    (∀ o ∈ os, hasTriple o = false ∧ o ≠ [] ∧
      (∀ c, o.head? = some c → jsWs c = false) ∧
      (∀ c, o.getLast? = some c → jsWs c = false)) →
    splitLoopF (sepJoin os).length [] (sepJoin os) = os := by
  intro os
  induction os with
  | nil => intro h; exact absurd rfl h
  | cons o rest ih =>
    intro _ hcl
    cases rest with
    | nil =>
      have := splitLoopF_noDelim o.length o [] (le_refl _) (hcl o (by simp)).1
      simpa [sepJoin] using this
    | cons o2 rest' =>
      have hjoin : sepJoin (o :: o2 :: rest') = o ++ sepChars ++ sepJoin (o2 :: rest') := by
        show o ++ (sepChars ++ sepJoin (o2 :: rest')) = _
        simp [List.append_assoc]
      obtain ⟨ho1, ho2, ho3, ho4⟩ := hcl o (by simp)
      obtain ⟨h21, h22, h23, h24⟩ := hcl o2 (by simp)
      have hhead : ∀ c, (sepJoin (o2 :: rest')).head? = some c → jsWs c = false := by
        intro c hc
        apply h23 c
        have hstart : ∃ z, sepJoin (o2 :: rest') = o2 ++ z := by
          cases rest' with
          | nil => exact ⟨[], by simp [sepJoin]⟩
          | cons o3 r3 => exact ⟨sepChars ++ sepJoin (o3 :: r3), rfl⟩
        obtain ⟨z, hz⟩ := hstart
        rw [hz, List.head?_append] at hc
        cases ho2h : o2.head? with
        | none => exact absurd (List.head?_eq_none_iff.mp ho2h) h22
        | some d =>
          rw [ho2h] at hc
          simp only [Option.or_some] at hc
          exact hc
      rw [hjoin]
      rw [splitLoopF_chunk o _ [] (sepJoin (o2 :: rest')) ho1 ho4 hhead
        (by simp [sepChars]; omega)]
      rw [ih (by simp) (fun x hx => hcl x (List.mem_cons_of_mem _ hx))]
      simp

/-- A batch original is clean when it is non-empty, free of three consecutive
pipes, and begins and ends with a non-whitespace character (so that it passes
through `trim` and the delimiter regular expression unscathed). -/
def cleanOriginal (o : String) : Bool :=
  !o.toList.isEmpty && !hasTriple o.toList &&
    o.toList.head?.all (fun c => !jsWs c) &&
    o.toList.getLast?.all (fun c => !jsWs c)

lemma cleanOriginal_spec (o : String) (h : cleanOriginal o = true) :
    hasTriple o.toList = false ∧ o.toList ≠ [] ∧
      (∀ c, o.toList.head? = some c → jsWs c = false) ∧
      (∀ c, o.toList.getLast? = some c → jsWs c = false) := by
  simp only [cleanOriginal, Bool.and_eq_true, Bool.not_eq_true'] at h
  obtain ⟨⟨⟨h1, h2⟩, h3⟩, h4⟩ := h
  refine ⟨h2, ?_, ?_, ?_⟩
  · intro hnil; rw [hnil] at h1; simp at h1
  · intro c hc; rw [hc] at h3; simpa using h3
  · intro c hc; rw [hc] at h4; simpa using h4

/-- Splitting the delimiter-join of clean originals recovers the originals. -/
lemma splitDelimStr_joinDelim (os : List String) (hne : os ≠ [])
    (hcl : ∀ o ∈ os, cleanOriginal o = true) :
    splitDelimStr (joinDelim os) = os := by
  have hlist : splitLoopF (sepJoin (os.map String.toList)).length []
      (sepJoin (os.map String.toList)) = os.map String.toList := by
    apply splitChunks_sepJoin
    · simpa using hne
    · intro l hl
      obtain ⟨o, ho, rfl⟩ := List.mem_map.mp hl
      exact cleanOriginal_spec o (hcl o ho)
  show (splitLoopF (sepJoin (os.map String.toList)).length []
      (sepJoin (os.map String.toList))).map String.mk = os
  rw [hlist, List.map_map]
  have hid : (String.mk ∘ String.toList) = id := by
    funext s; rfl
  rw [hid, List.map_id]

/-! ## Batch processing (`src/services/mockBackend.ts`, `processFile`) -/

/-- `mockBackend.ts` line 257. -/
def MAX_BATCH_CHARS : Nat := 2000

/-- The broadcast messages of `processFile`, plus an `apiCall` marker recording
each invocation of the translation client (so that call ordering and call
counts are observable in the trace). -/
inductive Event where
  | fileProgress (progress : Nat) (status : Option JobStatus)
  | segTranslating (id : String) (index : Nat) (original : String)
  | apiCall (text : String)
  | segTranslated (id : String) (index : Nat) (translated : String) (original : String)
  | segWarning (id : String) (index : Nat) (message : String)
  | fileComplete (progress : Nat)
deriving DecidableEq

/-- `mockBackend.ts` line 273: `segment.status = 'translating'` — only the
segment that triggered the flush (the last of the batch) has its status field
set. -/
def setLastTranslating : List Segment → List Segment
  | [] => []
  | s :: rest =>
    match rest with
    | [] => [{ s with status := SegStatus.translating }]
    | r :: rs => s :: setLastTranslating (r :: rs)

/-- `mockBackend.ts` lines 272–328: one batch flush. Emits a per-segment
`SEGMENT_TRANSLATION` event with a `translating` payload, joins the originals
with `" ||| "`, calls the client once; on success splits the reply on
`/\s*\|\|\|\s*/` and zips the trimmed parts back by position (missing or empty
parts fall back to the segment's original, status `completed`); on failure
marks every segment `warning` with message "Translation failed". -/
def flushBatch (translate : String → Except ApiError String) (batch : List Segment) :
    List Segment × List Event :=
  let marked := setLastTranslating batch
  let transEvents := marked.map (fun s => Event.segTranslating s.id s.index s.original)
  let joined := joinDelim (marked.map (fun s => s.original))
  match translate joined with
  | Except.ok translatedBlock =>
    let parts := splitDelimStr translatedBlock
    let updated := marked.mapIdx (fun i s =>
      let trans := jsTrim (parts.getD i "")
      { s with translated := if trans = "" then s.original else trans,
               status := SegStatus.completed })
    (updated,
      transEvents ++ Event.apiCall joined ::
        updated.map (fun s => Event.segTranslated s.id s.index s.translated s.original))
  | Except.error _ =>
    let updated := marked.map (fun s =>
      { s with status := SegStatus.warning, warningMessage := some "Translation failed" })
    (updated,
      transEvents ++ Event.apiCall joined ::
        updated.map (fun s => Event.segWarning s.id s.index "Translation failed"))

/-- `Math.round((completed / total) * 100)` as exact half-up rounding of the
rational `100 * c / t`. -/
def jsRound100 (c t : Nat) : Nat := (200 * c + t) / (2 * t)

/-- `mockBackend.ts` lines 263–341: the batching loop over the in-scope
segments. A batch is flushed when the accumulated character count reaches
`MAX_BATCH_CHARS` or the segment is the last one; after each flush the
progress percentage is emitted. -/
def runBatches (translate : String → Except ApiError String) (total : Nat) :
    List Segment → List Segment → Nat → Nat → List Segment × List Event
  | [], _, _, _ => ([], [])
  | s :: rest, currentBatch, charCount, completedSoFar =>
    let batch := currentBatch ++ [s]
    let cc := charCount + s.original.length
    if MAX_BATCH_CHARS ≤ cc ∨ rest = [] then
      let flushed := flushBatch translate batch
      let completed := completedSoFar + batch.length
      let next := runBatches translate total rest [] 0 completed
      (flushed.1 ++ next.1,
        flushed.2 ++ Event.fileProgress (jsRound100 completed total) none :: next.2)
    else
      runBatches translate total rest batch cc completedSoFar

/-- The observable outcome of one `processFile` run: the processed in-scope
segments, the event trace, and the job's final status and progress fields. -/
structure ProcessResult where
  segments : List Segment
  events : List Event
  finalStatus : JobStatus
  finalProgress : Nat

/-- `mockBackend.ts` lines 212–352: mark the job `processing`, compute the
scope, finish immediately when the scope is empty, otherwise run the batching
loop; in all paths the job ends `completed` with progress 100 and a
`FILE_COMPLETE` event. -/
def processFile (translate : String → Except ApiError String)
    (segments : List Segment) (selectedRange : Option PageRange)
    (pageCount : Option Nat) : ProcessResult :=
  let inScope := scopeSegments segments selectedRange pageCount
  let total := inScope.length
  if total = 0 then
    { segments := inScope,
      events := [Event.fileProgress 0 (some JobStatus.processing), Event.fileComplete 100],
      finalStatus := JobStatus.completed, finalProgress := 100 }
  else
    let run := runBatches translate total inScope [] 0 0
    { segments := run.1,
      events := Event.fileProgress 0 (some JobStatus.processing) :: run.2
        ++ [Event.fileComplete 100],
      finalStatus := JobStatus.completed, finalProgress := 100 }

/-- The batch sizes produced by the batching loop's chunking rule. -/
def batchSizes : List Segment → Nat → Nat → List Nat
  | [], _, _ => []
  | s :: rest, batchLen, charCount =>
    let bl := batchLen + 1
    let cc := charCount + s.original.length
    if MAX_BATCH_CHARS ≤ cc ∨ rest = [] then bl :: batchSizes rest 0 0
    else batchSizes rest bl cc

/-- Running partial sums. -/
def cumSums : List Nat → Nat → List Nat
  | [], _ => []
  | n :: rest, acc => (acc + n) :: cumSums rest (acc + n)

/-- The progress percentages carried by the `FILE_PROGRESS` events of a trace. -/
def progressValues (events : List Event) : List Nat :=
  events.filterMap (fun e =>
    match e with
    | Event.fileProgress p _ => some p
    | _ => none)

/-- `setLastTranslating` changes no field that a status-blind function can
see. -/
lemma setLast_map {β : Type} (f : Segment → β)
    (hf : ∀ s, f { s with status := SegStatus.translating } = f s) :
    ∀ b : List Segment, (setLastTranslating b).map f = b.map f := by
  intro b
  induction b with
  | nil => rfl
  | cons s rest ih =>
    cases rest with
    | nil => simp [setLastTranslating, hf]
    | cons r rs =>
      simp only [setLastTranslating, List.map_cons]
      rw [ih]
      simp

lemma setLast_mapIdx {β : Type} : ∀ (b : List Segment) (g : Nat → Segment → β),
    (∀ i s, g i { s with status := SegStatus.translating } = g i s) →
    (setLastTranslating b).mapIdx g = b.mapIdx g := by
  intro b
  induction b with
  | nil => intro g _; rfl
  | cons s rest ih =>
    intro g hg
    cases rest with
    | nil => simp [setLastTranslating, List.mapIdx_cons, hg]
    | cons r rs =>
      simp only [setLastTranslating, List.mapIdx_cons]
      rw [ih (fun i => g (i + 1)) (fun i s => hg (i + 1) s)]
      simp [List.mapIdx_cons]

lemma setLast_length : ∀ b : List Segment, (setLastTranslating b).length = b.length := by
  intro b
  induction b with
  | nil => rfl
  | cons s rest ih =>
    cases rest with
    | nil => rfl
    | cons r rs =>
      simp only [setLastTranslating, List.length_cons]
      rw [ih]
      simp

/-- `setLastTranslating` marks exactly the final segment. -/
lemma setLast_append : ∀ (pre : List Segment) (lastSeg : Segment),
    setLastTranslating (pre ++ [lastSeg])
      = pre ++ [{ lastSeg with status := SegStatus.translating }] := by
  intro pre lastSeg
  induction pre with
  | nil => rfl
  | cons a pre' ih =>
    cases hp : pre' ++ [lastSeg] with
    | nil => exact absurd hp (by simp)
    | cons x xs =>
      simp only [List.cons_append, hp, setLastTranslating]
      rw [← hp, ih]

lemma setLast_originals (b : List Segment) :
    (setLastTranslating b).map (fun s => s.original) = b.map (fun s => s.original) :=
  setLast_map (fun s => s.original) (fun _ => rfl) b

/-- On a failed batch call every segment of the batch is marked `warning` with
the warning message, and nothing else changes. -/
lemma flushBatch_error (translate : String → Except ApiError String)
    (batch : List Segment) (e : ApiError)
    (h : translate (joinDelim (batch.map (fun s => s.original))) = Except.error e) :
    (flushBatch translate batch).1
      = batch.map (fun s =>
          { s with status := SegStatus.warning,
                   warningMessage := some "Translation failed" }) := by
  simp only [flushBatch, setLast_originals, h]
  exact setLast_map (β := Segment)
    (fun s =>
      { s with status := SegStatus.warning, warningMessage := some "Translation failed" })
    (fun _ => rfl) batch

/-- Every segment that leaves a flush is `completed` or `warning`. -/
lemma flushBatch_statuses (translate : String → Except ApiError String)
    (batch : List Segment) :
    ∀ x ∈ (flushBatch translate batch).1,
      x.status = SegStatus.completed ∨ x.status = SegStatus.warning := by
  intro x hx
  simp only [flushBatch] at hx
  cases htr : translate (joinDelim ((setLastTranslating batch).map (fun s => s.original))) with
  | ok t =>
    rw [htr] at hx
    simp only [] at hx
    rw [List.mapIdx_eq_enum_map] at hx
    obtain ⟨p, _, rfl⟩ := List.mem_map.mp hx
    left; rfl
  | error e =>
    rw [htr] at hx
    simp only [] at hx
    obtain ⟨s, _, rfl⟩ := List.mem_map.mp hx
    right; rfl

/-- A flush neither drops nor adds segments. -/
lemma flushBatch_length (translate : String → Except ApiError String)
    (batch : List Segment) :
    (flushBatch translate batch).1.length = batch.length := by
  simp only [flushBatch]
  cases htr : translate (joinDelim ((setLastTranslating batch).map (fun s => s.original))) with
  | ok t => simp [List.length_mapIdx, setLast_length]
  | error e => simp [setLast_length]

/-- A flush emits no `FILE_PROGRESS` event. -/
lemma flushBatch_no_progress (translate : String → Except ApiError String)
    (batch : List Segment) :
    progressValues (flushBatch translate batch).2 = [] := by
  simp only [flushBatch]
  cases htr : translate (joinDelim ((setLastTranslating batch).map (fun s => s.original))) with
  | ok t =>
    simp only [progressValues, List.filterMap_append, List.filterMap_cons,
      List.filterMap_map]
    rw [List.filterMap_eq_nil_iff.mpr, List.filterMap_eq_nil_iff.mpr] <;> simp [Function.comp]
  | error e =>
    simp only [progressValues, List.filterMap_append, List.filterMap_cons,
      List.filterMap_map]
    rw [List.filterMap_eq_nil_iff.mpr, List.filterMap_eq_nil_iff.mpr] <;> simp [Function.comp]

lemma progressValues_append (a b : List Event) :
    progressValues (a ++ b) = progressValues a ++ progressValues b :=
  List.filterMap_append a b _

lemma progressValues_progress_cons (p : Nat) (st : Option JobStatus) (evs : List Event) :
    progressValues (Event.fileProgress p st :: evs) = p :: progressValues evs := rfl

/-- Whatever the translation outcomes, every segment that leaves the batching
loop has been attempted: its status is `completed` or `warning`. -/
lemma runBatches_statuses (translate : String → Except ApiError String) (total : Nat) :
    ∀ (segs cur : List Segment) (cc comp : Nat),
      ∀ x ∈ (runBatches translate total segs cur cc comp).1,
        x.status = SegStatus.completed ∨ x.status = SegStatus.warning := by
  intro segs
  induction segs with
  | nil => intro cur cc comp x hx; simp [runBatches] at hx
  | cons s rest ih =>
    intro cur cc comp x hx
    simp only [runBatches] at hx
    by_cases hcond : MAX_BATCH_CHARS ≤ cc + s.original.length ∨ rest = []
    · rw [if_pos hcond] at hx
      simp only [List.mem_append] at hx
      rcases hx with h | h
      · exact flushBatch_statuses _ _ x h
      · exact ih [] 0 _ x h
    · rw [if_neg hcond] at hx
      exact ih (cur ++ [s]) _ comp x hx

/-- The batching loop keeps every in-scope segment. -/
lemma runBatches_length (translate : String → Except ApiError String) (total : Nat) :
    ∀ (segs cur : List Segment) (cc comp : Nat), segs ≠ [] →
      (runBatches translate total segs cur cc comp).1.length
        = cur.length + segs.length := by
  intro segs
  induction segs with
  | nil => intro cur cc comp h; exact absurd rfl h
  | cons s rest ih =>
    intro cur cc comp _
    simp only [runBatches]
    by_cases hcond : MAX_BATCH_CHARS ≤ cc + s.original.length ∨ rest = []
    · rw [if_pos hcond]
      rcases eq_or_ne rest [] with hr | hr
      · subst hr
        simp [runBatches, flushBatch_length]
      · simp only [List.length_append, flushBatch_length, ih [] 0 _ hr]
        simp
        omega
    · rw [if_neg hcond]
      have hr : rest ≠ [] := by
        rintro rfl
        exact hcond (Or.inr rfl)
      rw [ih (cur ++ [s]) _ comp hr]
      simp
      omega

/-- The progress events of the batching loop are exactly the rounded
percentages of the cumulative attempted-segment counts, one per batch. -/
lemma runBatches_progressValues (translate : String → Except ApiError String) (total : Nat) :
    ∀ (segs cur : List Segment) (cc comp : Nat),
      progressValues (runBatches translate total segs cur cc comp).2
        = (cumSums (batchSizes segs cur.length cc) comp).map
            (fun c => jsRound100 c total) := by
  intro segs
  induction segs with
  | nil => intro cur cc comp; simp [runBatches, batchSizes, cumSums, progressValues]
  | cons s rest ih =>
    intro cur cc comp
    simp only [runBatches, batchSizes]
    by_cases hcond : MAX_BATCH_CHARS ≤ cc + s.original.length ∨ rest = []
    · rw [if_pos hcond, if_pos hcond]
      rw [progressValues_append, flushBatch_no_progress, progressValues_progress_cons]
      simp only [List.nil_append]
      rw [ih]
      have hlen : (cur ++ [s]).length = cur.length + 1 := by simp
      rw [hlen]
      simp [cumSums]
    · rw [if_neg hcond, if_neg hcond]
      rw [ih (cur ++ [s]) _ comp]
      have hlen : (cur ++ [s]).length = cur.length + 1 := by simp
      rw [hlen]

lemma cumSums_head_ge : ∀ (l : List Nat) (acc y : Nat),
    (cumSums l acc).head? = some y → acc ≤ y := by
  intro l acc y h
  cases l with
  | nil => exact absurd h (by simp [cumSums])
  | cons n rest =>
    simp only [cumSums, List.head?_cons, Option.some.injEq] at h
    omega

lemma cumSums_chain : ∀ (l : List Nat) (acc : Nat),
    List.Chain' (· ≤ ·) (cumSums l acc) := by
  intro l
  induction l with
  | nil => intro acc; simp [cumSums]
  | cons n rest ih =>
    intro acc
    simp only [cumSums]
    rw [List.chain'_cons']
    refine ⟨?_, ih (acc + n)⟩
    intro y hy
    exact cumSums_head_ge rest (acc + n) y hy

lemma jsRound100_mono (t : Nat) {c c' : Nat} (h : c ≤ c') :
    jsRound100 c t ≤ jsRound100 c' t :=
  Nat.div_le_div_right (by omega)

/-! ## Claim C4 -/

/-- C4: when a batch's translation call fails, every segment of that batch is
marked `warning` with the warning message; processing continues — every
in-scope segment still ends attempted (`completed` or `warning`), none are
dropped — and the job still ends `completed` with progress 100. -/
theorem c4_batch_failure_isolation (translate : String → Except ApiError String)
    (segments : List Segment) (selectedRange : Option PageRange)
    (pageCount : Option Nat) :
    (∀ (batch : List Segment) (e : ApiError),
      translate (joinDelim (batch.map (fun s => s.original))) = Except.error e →
      (flushBatch translate batch).1
        = batch.map (fun s =>
            { s with status := SegStatus.warning,
                     warningMessage := some "Translation failed" })) ∧
    (processFile translate segments selectedRange pageCount).finalStatus
        = JobStatus.completed ∧
    (processFile translate segments selectedRange pageCount).finalProgress = 100 ∧
    (processFile translate segments selectedRange pageCount).segments.length
        = (scopeSegments segments selectedRange pageCount).length ∧
    (∀ x ∈ (processFile translate segments selectedRange pageCount).segments,
      x.status = SegStatus.completed ∨ x.status = SegStatus.warning) := by
  refine ⟨fun batch e h => flushBatch_error translate batch e h, ?_, ?_, ?_, ?_⟩ <;>
    simp only [processFile] <;>
    by_cases h0 : (scopeSegments segments selectedRange pageCount).length = 0
  · rw [if_pos h0]
  · rw [if_neg h0]
  · rw [if_pos h0]
  · rw [if_neg h0]
  · rw [if_pos h0]
  · rw [if_neg h0]
    show (runBatches translate _ (scopeSegments segments selectedRange pageCount)
      [] 0 0).1.length = _
    rw [runBatches_length translate _ _ [] 0 0
      (fun hnil => h0 (by rw [hnil]; rfl))]
    simp
  · rw [if_pos h0]
    intro x hx
    rw [List.length_eq_zero.mp h0] at hx
    exact absurd hx (List.not_mem_nil x)
  · rw [if_neg h0]
    intro x hx
    exact runBatches_statuses translate _ _ [] 0 0 x hx

/-- Concrete one-segment job whose only batch call fails, for the C4 witness. -/
def failSegment : Segment :=
  { id := "seg-x-0", index := 0, original := "some text", translated := "",
    status := SegStatus.pending }

/-- C4 witness: with a client that always fails, the single batch's segment is
marked `warning` with the message, and the job still completes at 100. -/
theorem c4_batch_failure_isolation_witness :
    ((fun _ : String => (Except.error throttleError : Except ApiError String))
        (joinDelim ([failSegment].map (fun s => s.original))) = Except.error throttleError ∧
      (flushBatch (fun _ => Except.error throttleError) [failSegment]).1
        = [failSegment].map (fun s =>
            { s with status := SegStatus.warning,
                     warningMessage := some "Translation failed" })) ∧
    (processFile (fun _ => Except.error throttleError) [failSegment] none none).finalStatus
        = JobStatus.completed ∧
    (processFile (fun _ => Except.error throttleError) [failSegment] none none).finalProgress
        = 100 :=
  ⟨⟨rfl, (c4_batch_failure_isolation (fun _ => Except.error throttleError)
      [failSegment] none none).1 [failSegment] throttleError rfl⟩,
    (c4_batch_failure_isolation (fun _ => Except.error throttleError)
      [failSegment] none none).2.1,
    (c4_batch_failure_isolation (fun _ => Except.error throttleError)
      [failSegment] none none).2.2.1⟩

/-! ## Claim C9 -/

/-- C9: a job whose computed scope is empty is immediately completed with
progress 100, the completion event fires, and the translation client is never
called. -/
theorem c9_empty_scope (translate : String → Except ApiError String)
    (segments : List Segment) (selectedRange : Option PageRange)
    (pageCount : Option Nat)
    (h : scopeSegments segments selectedRange pageCount = []) :
    (processFile translate segments selectedRange pageCount).finalStatus
        = JobStatus.completed ∧
    (processFile translate segments selectedRange pageCount).finalProgress = 100 ∧
    (processFile translate segments selectedRange pageCount).events
        = [Event.fileProgress 0 (some JobStatus.processing), Event.fileComplete 100] ∧
    ∀ t, Event.apiCall t ∉ (processFile translate segments selectedRange pageCount).events := by
  have h0 : (scopeSegments segments selectedRange pageCount).length = 0 := by
    rw [h]; rfl
  refine ⟨?_, ?_, ?_, ?_⟩ <;> simp [processFile, h0]

/-- A segment on page 1, outside the buffered window of range 5-15. -/
def pageOneSegment : Segment :=
  { id := "seg-p1-0", index := 0, original := "cover page", translated := "",
    status := SegStatus.pending, pageNumber := some 1 }

/-- C9 witness: a single segment on page 1 with selected range 5–15 of a
20-page document leaves the scope empty; the job completes at once with no
API call. -/
theorem c9_empty_scope_witness :
    scopeSegments [pageOneSegment] (some ⟨5, 15⟩) (some 20) = [] ∧
    ((processFile (fun t => Except.ok t) [pageOneSegment]
        (some ⟨5, 15⟩) (some 20)).finalStatus = JobStatus.completed ∧
      (processFile (fun t => Except.ok t) [pageOneSegment]
        (some ⟨5, 15⟩) (some 20)).finalProgress = 100 ∧
      (processFile (fun t => Except.ok t) [pageOneSegment]
          (some ⟨5, 15⟩) (some 20)).events
        = [Event.fileProgress 0 (some JobStatus.processing), Event.fileComplete 100] ∧
      ∀ t, Event.apiCall t ∉ (processFile (fun t => Except.ok t) [pageOneSegment]
        (some ⟨5, 15⟩) (some 20)).events) :=
  ⟨by decide,
    c9_empty_scope (fun t => Except.ok t) [pageOneSegment] (some ⟨5, 15⟩) (some 20)
      (by decide)⟩

/-! ## Claim C6 -/

/-- C6: while the job is processing, the emitted progress sequence starts at 0
and then carries, after each batch, exactly
`round(100 * attemptedSoFar / totalInScope)` (the cumulative attempted counts
are the partial sums of the batch sizes); the sequence is non-decreasing, and
when the job becomes `completed` its progress is exactly 100. -/
theorem c6_progress_monotone (translate : String → Except ApiError String)
    (segments : List Segment) (selectedRange : Option PageRange)
    (pageCount : Option Nat)
    (h : scopeSegments segments selectedRange pageCount ≠ []) :
    progressValues (processFile translate segments selectedRange pageCount).events
      = 0 :: (cumSums (batchSizes (scopeSegments segments selectedRange pageCount) 0 0) 0).map
          (fun c => jsRound100 c (scopeSegments segments selectedRange pageCount).length) ∧
    List.Chain' (· ≤ ·)
      (progressValues (processFile translate segments selectedRange pageCount).events) ∧
    (processFile translate segments selectedRange pageCount).finalStatus
        = JobStatus.completed ∧
    (processFile translate segments selectedRange pageCount).finalProgress = 100 := by
  have h0 : ¬ (scopeSegments segments selectedRange pageCount).length = 0 := by
    simpa [List.length_eq_zero] using h
  have hev : (processFile translate segments selectedRange pageCount).events
      = Event.fileProgress 0 (some JobStatus.processing) ::
          (runBatches translate (scopeSegments segments selectedRange pageCount).length
            (scopeSegments segments selectedRange pageCount) [] 0 0).2
        ++ [Event.fileComplete 100] := by
    simp only [processFile]
    rw [if_neg h0]
  have hpv : progressValues (processFile translate segments selectedRange pageCount).events
      = 0 :: (cumSums (batchSizes (scopeSegments segments selectedRange pageCount) 0 0) 0).map
          (fun c => jsRound100 c (scopeSegments segments selectedRange pageCount).length) := by
    rw [hev]
    rw [show Event.fileProgress 0 (some JobStatus.processing) ::
        (runBatches translate (scopeSegments segments selectedRange pageCount).length
          (scopeSegments segments selectedRange pageCount) [] 0 0).2 ++ [Event.fileComplete 100]
      = Event.fileProgress 0 (some JobStatus.processing) ::
        ((runBatches translate (scopeSegments segments selectedRange pageCount).length
          (scopeSegments segments selectedRange pageCount) [] 0 0).2 ++ [Event.fileComplete 100])
      from rfl]
    rw [progressValues_progress_cons, progressValues_append]
    rw [runBatches_progressValues]
    simp [progressValues]
  refine ⟨hpv, ?_, ?_, ?_⟩
  · rw [hpv]
    rw [List.chain'_cons']
    constructor
    · intro y _
      exact Nat.zero_le y
    · rw [List.chain'_map]
      exact (cumSums_chain _ 0).imp (fun a b hab => jsRound100_mono _ hab)
  · simp only [processFile]
    rw [if_neg h0]
  · simp only [processFile]
    rw [if_neg h0]

/-- C6 witness: a one-segment job with an echoing client emits the progress
trace `[0, 100]`. -/
theorem c6_progress_monotone_witness :
    scopeSegments [failSegment] none none ≠ [] ∧
    (progressValues (processFile (fun t => Except.ok t) [failSegment] none none).events
        = 0 :: (cumSums (batchSizes (scopeSegments [failSegment] none none) 0 0) 0).map
            (fun c => jsRound100 c (scopeSegments [failSegment] none none).length) ∧
      List.Chain' (· ≤ ·)
        (progressValues (processFile (fun t => Except.ok t) [failSegment] none none).events) ∧
      (processFile (fun t => Except.ok t) [failSegment] none none).finalStatus
          = JobStatus.completed ∧
      (processFile (fun t => Except.ok t) [failSegment] none none).finalProgress = 100) :=
  ⟨by decide,
    c6_progress_monotone (fun t => Except.ok t) [failSegment] none none (by decide)⟩

/-! ## Claim C8 -/

/-- C8 counterexample: in a two-segment batch of pending segments, the state
just before the client call (after `segment.status = 'translating'` on the
flush trigger) does not have every segment's status equal to `translating` —
only the last one. -/
theorem c8_counterexample :
    ¬ (∀ s ∈ setLastTranslating [failSegment, pageFourSegment],
        s.status = SegStatus.translating) := by
  decide

/-- C8 (amended): at the start of a batch flush only the batch's final segment
(the one that triggered the flush) has its status field set to `translating`;
the earlier segments keep their previous status. A per-segment
`SEGMENT_TRANSLATION` event carrying a `translating` payload is nevertheless
emitted for every segment of the batch, and all of these events precede the
single translation-client call of the flush. -/
theorem c8_translating_marking (translate : String → Except ApiError String)
    (batch pre : List Segment) (lastSeg : Segment)
    (hb : batch = pre ++ [lastSeg]) :
    setLastTranslating batch
        = pre ++ [{ lastSeg with status := SegStatus.translating }] ∧
    (∃ post, (flushBatch translate batch).2
      = (setLastTranslating batch).map
          (fun s => Event.segTranslating s.id s.index s.original)
        ++ Event.apiCall (joinDelim (batch.map (fun s => s.original))) :: post) := by
  constructor
  · rw [hb]
    exact setLast_append pre lastSeg
  · simp only [flushBatch, setLast_originals]
    cases translate (joinDelim (batch.map (fun s => s.original))) with
    | ok t => exact ⟨_, rfl⟩
    | error e => exact ⟨_, rfl⟩

/-- C8 witness: the two-segment batch flush marks only the second segment's
status, yet emits translating events for both before the client call. -/
theorem c8_translating_marking_witness :
    ([failSegment, pageFourSegment] = [failSegment] ++ [pageFourSegment]) ∧
    (setLastTranslating [failSegment, pageFourSegment]
        = [failSegment] ++ [{ pageFourSegment with status := SegStatus.translating }] ∧
      ∃ post, (flushBatch (fun t => Except.ok t) [failSegment, pageFourSegment]).2
        = (setLastTranslating [failSegment, pageFourSegment]).map
            (fun s => Event.segTranslating s.id s.index s.original)
          ++ Event.apiCall (joinDelim
              ([failSegment, pageFourSegment].map (fun s => s.original))) :: post) :=
  ⟨rfl, c8_translating_marking (fun t => Except.ok t) [failSegment, pageFourSegment]
    [failSegment] pageFourSegment rfl⟩

/-! ## Claim C5 -/

/-- Default segment for positional lookups. -/
def blankSegment : Segment :=
  { id := "", index := 0, original := "", translated := "", status := SegStatus.pending }

lemma mapIdx_getD (l : List Segment) (g : Nat → Segment → Segment) (i : Nat)
    (d : Segment) (hi : i < l.length) :
    (l.mapIdx g).getD i d = g i (l.getD i d) := by
  have hi' : i < (l.mapIdx g).length := by rw [List.length_mapIdx]; exact hi
  rw [List.getD_eq_getElem _ _ hi', List.getD_eq_getElem _ _ hi]
  have := List.get_mapIdx l g i hi
  simp only [List.get_eq_getElem] at this
  exact this

lemma setLast_getD_original (b : List Segment) (i : Nat) (hi : i < b.length)
    (d : Segment) :
    ((setLastTranslating b).getD i d).original = (b.getD i d).original := by
  have hi' : i < (setLastTranslating b).length := by rw [setLast_length]; exact hi
  rw [List.getD_eq_getElem _ _ hi', List.getD_eq_getElem _ _ hi]
  have h2 := congrArg (fun l : List String => l[i]?) (setLast_originals b)
  simp only [List.getElem?_map] at h2
  rw [List.getElem?_eq_getElem hi', List.getElem?_eq_getElem hi] at h2
  simp only [Option.map_some'] at h2
  exact Option.some.inj h2

/-- C5: when the translated block splits into fewer (or empty) parts than the
batch has segments, no segment is dropped — the output has the batch's length —
and every unmatched or empty-part position gets its own original text back with
status `completed`, never `warning`. -/
theorem c5_missing_parts_fallback (translate : String → Except ApiError String)
    (batch : List Segment) (block : String)
    (h : translate (joinDelim (batch.map (fun s => s.original))) = Except.ok block) :
    (flushBatch translate batch).1.length = batch.length ∧
    ∀ i, i < batch.length →
      ((splitDelimStr block).length ≤ i ∨ jsTrim ((splitDelimStr block).getD i "") = "") →
      ((flushBatch translate batch).1.getD i blankSegment).translated
          = (batch.getD i blankSegment).original ∧
      ((flushBatch translate batch).1.getD i blankSegment).status
          = SegStatus.completed := by
  have hfst : (flushBatch translate batch).1
      = (setLastTranslating batch).mapIdx (fun i s =>
          let trans := jsTrim ((splitDelimStr block).getD i "")
          { s with translated := if trans = "" then s.original else trans,
                   status := SegStatus.completed }) := by
    simp only [flushBatch, setLast_originals, h]
  refine ⟨flushBatch_length _ _, ?_⟩
  intro i hi hcase
  have hi' : i < (setLastTranslating batch).length := by
    rw [setLast_length]; exact hi
  have htr : jsTrim ((splitDelimStr block).getD i "") = "" := by
    rcases hcase with hlen | htrim
    · rw [List.getD_eq_default _ _ hlen]
      rfl
    · exact htrim
  rw [hfst, mapIdx_getD _ _ i blankSegment hi']
  simp only [htr, if_pos rfl]
  exact ⟨setLast_getD_original batch i hi blankSegment, trivial⟩

/-- Concrete two-segment batch whose reply has a single part, for the C5
counterpart scenario. -/
def alphaSegment : Segment :=
  { id := "seg-a-0", index := 0, original := "alpha", translated := "",
    status := SegStatus.pending }

/-- Second segment of the C5 witness batch. -/
def betaSegment : Segment :=
  { id := "seg-b-1", index := 1, original := "beta", translated := "",
    status := SegStatus.pending }

/-- C5 witness: a reply of one part for a two-segment batch leaves the second
segment with its original text and status `completed`. -/
theorem c5_missing_parts_fallback_witness :
    ((fun _ : String => (Except.ok "X" : Except ApiError String))
        (joinDelim ([alphaSegment, betaSegment].map (fun s => s.original)))
      = Except.ok "X" ∧
      1 < ([alphaSegment, betaSegment] : List Segment).length ∧
      (splitDelimStr "X").length ≤ 1) ∧
    ((flushBatch (fun _ => Except.ok "X") [alphaSegment, betaSegment]).1.length
        = ([alphaSegment, betaSegment] : List Segment).length ∧
      ((flushBatch (fun _ => Except.ok "X") [alphaSegment, betaSegment]).1.getD 1
          blankSegment).translated
        = (([alphaSegment, betaSegment] : List Segment).getD 1 blankSegment).original ∧
      ((flushBatch (fun _ => Except.ok "X") [alphaSegment, betaSegment]).1.getD 1
          blankSegment).status = SegStatus.completed) :=
  ⟨⟨rfl, by decide, by decide⟩,
    (c5_missing_parts_fallback (fun _ => Except.ok "X") [alphaSegment, betaSegment]
        "X" rfl).1,
    ((c5_missing_parts_fallback (fun _ => Except.ok "X") [alphaSegment, betaSegment]
        "X" rfl).2 1 (by decide) (Or.inl (by decide))).1,
    ((c5_missing_parts_fallback (fun _ => Except.ok "X") [alphaSegment, betaSegment]
        "X" rfl).2 1 (by decide) (Or.inl (by decide))).2⟩

/-! ## Claim C7 -/

lemma jsTrim_eq_self (o : String)
    (hhead : ∀ c, o.toList.head? = some c → jsWs c = false)
    (hlast : ∀ c, o.toList.getLast? = some c → jsWs c = false) :
    jsTrim o = o := by
  unfold jsTrim
  have h1 : o.toList.dropWhile jsWs = o.toList := by
    cases hl : o.toList with
    | nil => rfl
    | cons c t =>
      have hc := hhead c (by rw [hl]; rfl)
      rw [List.dropWhile_cons, if_neg (by simp [hc])]
  rw [h1]
  have h2 : o.toList.reverse.dropWhile jsWs = o.toList.reverse := by
    cases hr : o.toList.reverse with
    | nil => rfl
    | cons c t =>
      have hc : o.toList.getLast? = some c := by
        rw [← List.head?_reverse, hr]; rfl
      have hw := hlast c hc
      rw [List.dropWhile_cons, if_neg (by simp [hw])]
  rw [h2, List.reverse_reverse]
  rfl

lemma cleanOriginal_trim (o : String) (h : cleanOriginal o = true) :
    jsTrim o = o ∧ o ≠ "" := by
  obtain ⟨_, h2, h3, h4⟩ := cleanOriginal_spec o h
  refine ⟨jsTrim_eq_self o h3 h4, ?_⟩
  intro he
  rw [he] at h2
  exact h2 rfl

/-- Zipping a batch's own originals back onto it is the identity on text. -/
lemma mapIdx_parts_id : ∀ (b : List Segment) (os : List String),
    os = b.map (fun s => s.original) →
    (∀ o ∈ os, jsTrim o = o ∧ o ≠ "") →
    b.mapIdx (fun i s =>
      { s with translated := if jsTrim (os.getD i "") = "" then s.original
                             else jsTrim (os.getD i ""),
               status := SegStatus.completed })
      = b.map (fun s =>
          { s with translated := s.original, status := SegStatus.completed }) := by
  intro b
  induction b with
  | nil => intro os _ _; rfl
  | cons s b' ih =>
    intro os hos hcl
    subst hos
    have h0 : jsTrim s.original = s.original ∧ s.original ≠ "" :=
      hcl s.original (by simp)
    simp only [List.map_cons, List.mapIdx_cons, List.getD_cons_zero, List.getD_cons_succ]
    rw [h0.1, if_neg h0.2]
    congr 1
    exact ih (b'.map (fun s => s.original)) rfl
      (fun o ho => hcl o (by simp [ho]))

/-- C7 (amended): if the client's response echoes the exact delimiter-joined
original text of a batch whose originals are each non-empty, free of three
consecutive pipes, and without leading or trailing whitespace, then after the
flush every segment of the batch has `translated` equal to its `original`
(status `completed`). Without these conditions the zip-back trims or re-splits
the echoed text, as the counterexample shows. -/
theorem c7_echo_roundtrip (translate : String → Except ApiError String)
    (batch : List Segment) (hne : batch ≠ [])
    (hcl : ∀ s ∈ batch, cleanOriginal s.original = true)
    (hecho : translate (joinDelim (batch.map (fun s => s.original)))
      = Except.ok (joinDelim (batch.map (fun s => s.original)))) :
    (flushBatch translate batch).1
      = batch.map (fun s =>
          { s with translated := s.original, status := SegStatus.completed }) := by
  have hparts : splitDelimStr (joinDelim (batch.map (fun s => s.original)))
      = batch.map (fun s => s.original) := by
    apply splitDelimStr_joinDelim
    · simpa using hne
    · intro o ho
      obtain ⟨s, hs, rfl⟩ := List.mem_map.mp ho
      exact hcl s hs
  simp only [flushBatch, setLast_originals, hecho, hparts]
  rw [setLast_mapIdx batch]
  · exact mapIdx_parts_id batch (batch.map (fun s => s.original)) rfl
      (fun o ho => by
        obtain ⟨s, hs, rfl⟩ := List.mem_map.mp ho
        exact cleanOriginal_trim _ (hcl s hs))
  · intro i s
    rfl

/-- Segment with trailing whitespace in its original, breaking the naive
round-trip. -/
def helloSegment : Segment :=
  { id := "seg-h-0", index := 0, original := "Hello ", translated := "",
    status := SegStatus.pending }

/-- C7 counterexample: with the one-segment batch `["Hello "]` and a client
that echoes its input exactly, the flushed segment's `translated` is the
trimmed `"Hello"`, not the original `"Hello "` — the claim fails as stated. -/
theorem c7_echo_counterexample :
    (fun t : String => (Except.ok t : Except ApiError String))
        (joinDelim ([helloSegment].map (fun s => s.original)))
      = Except.ok (joinDelim ([helloSegment].map (fun s => s.original))) ∧
    (flushBatch (fun t => Except.ok t) [helloSegment]).1.map
        (fun s => (s.translated, s.original)) = [("Hello", "Hello ")] ∧
    ("Hello" : String) ≠ "Hello " := by
  refine ⟨rfl, by decide, by decide⟩

/-- C7 witness: a clean two-segment batch echoed exactly reproduces
`translated = original` for every segment. -/
theorem c7_echo_roundtrip_witness :
    (([alphaSegment, betaSegment] : List Segment) ≠ [] ∧
      (∀ s ∈ ([alphaSegment, betaSegment] : List Segment),
        cleanOriginal s.original = true)) ∧
    (flushBatch (fun t => Except.ok t) [alphaSegment, betaSegment]).1
      = [alphaSegment, betaSegment].map (fun s =>
          { s with translated := s.original, status := SegStatus.completed }) :=
  ⟨⟨by decide, by decide⟩,
    c7_echo_roundtrip (fun t => Except.ok t) [alphaSegment, betaSegment]
      (by decide) (by decide) rfl⟩
